import Mathlib

/-!
Verification of the nearest-point engine in src/src/main.rs.

The file embeds the data model and the two query functions
Model::nearest_points (lines 119-163) and Model::nearest_way
(lines 165-175) of main.rs as Lean functions.  Distances in the Rust
code are f64 values; they are modelled by the type FVal below, which is
either NaN or a finite value represented exactly by a rational number.
The panicking expect branches of the Rust code are modelled by an
explicit error type RunError, so that each run of the embedded engine
either returns the value the Rust code returns or names the panic the
Rust code would abort with.

The modules geo and osm are declared in main.rs but their files are not
part of the available sources; the definitions that stand in for them
carry a doc comment starting with the words Modelled from the spec.
-/

set_option autoImplicit false

/-- Model of an IEEE f64 distance value: either NaN or a finite value,
represented exactly by a rational number. -/
inductive FVal : Type
  | nan : FVal
  | fin : ℚ → FVal
deriving DecidableEq

/-- Total comparison on rationals, the order an f64 comparison realises on
finite values. -/
def qcmp (a b : ℚ) : Ordering :=
  if a < b then Ordering.lt else if a = b then Ordering.eq else Ordering.gt

/-- Rust partial_cmp on f64: None exactly when one of the operands is NaN. -/
def FVal.pcmp : FVal → FVal → Option Ordering
  | .fin a, .fin b => some (qcmp a b)
  | _, _ => none

/-- Rust strict less-than on f64: false whenever an operand is NaN. -/
def FVal.ltF : FVal → FVal → Bool
  | .fin a, .fin b => decide (a < b)
  | _, _ => false

/-- Rust strict greater-than on f64: false whenever an operand is NaN. -/
def FVal.gtF : FVal → FVal → Bool
  | .fin a, .fin b => decide (b < a)
  | _, _ => false

/-- Less-or-equal on f64 values: false whenever an operand is NaN. -/
def FVal.leF : FVal → FVal → Bool
  | .fin a, .fin b => decide (a ≤ b)
  | _, _ => false

/-- True exactly on finite (non-NaN) values. -/
def FVal.isFin : FVal → Bool
  | .fin _ => true
  | .nan => false

/-- Coordinate record of the geo module: latitude and longitude in degrees
(struct Coord in main.rs line 2 usage). -/
structure Coord where
  lat : ℚ
  lon : ℚ
deriving DecidableEq

/-- An OSM node: an id and a coordinate pair. -/
structure OsmNode where
  id : ℤ
  lat : ℚ
  lon : ℚ
deriving DecidableEq

/-- Conversion of a node into a coordinate, the into() calls of main.rs. -/
def OsmNode.toCoord (n : OsmNode) : Coord :=
  ⟨n.lat, n.lon⟩

/-- An OSM way: an id and an ordered list of node-id references. -/
structure OsmWay where
  id : ℤ
  nd : List ℤ
deriving DecidableEq

/-- An OSM document: the insertion-ordered nodes and ways. -/
structure OsmDocument where
  nodes : List OsmNode
  ways : List OsmWay
deriving DecidableEq

/-- The application model of main.rs lines 11-15: a map handle (here only
its presence matters), the OSM document, and the optional query position. -/
structure Model where
  hasMap : Bool
  osm : OsmDocument
  position : Option Coord
deriving DecidableEq

/-- Modelled from the spec: the file of the osm module is absent from the
sources, only its use sites are visible.  Section 4.2 of the spec says a way
resolves its node references into an ordered sequence of coordinates through
the document id index; this definition performs that resolution.  A
reference that does not resolve is skipped here; no claim in this
development exercises that case. -/
def OsmWay.points (w : OsmWay) (osm : OsmDocument) : List OsmNode :=
  w.nd.filterMap (fun r => osm.nodes.find? (fun n => n.id == r))

/-- Modelled from the spec: the file of the geo module is absent from the
sources.  Its four functions (section 4.1: haversine distance, initial
bearing, destination point, signed along-track distance) are kept abstract;
every theorem below holds for an arbitrary interpretation of them, so
nothing depends on the trigonometric formulas. -/
structure GeoFns where
  distance : Coord → Coord → FVal
  bearing : Coord → Coord → FVal
  alongTrackDistance : Coord → Coord → Coord → FVal
  destination : Coord → FVal → FVal → Coord

/-- An element of the result vector of nearest_points: a distance, the
nearest coordinate, and the way it belongs to. -/
abbrev Entry : Type := FVal × Coord × OsmWay

/-- The panic branches the engine can reach, each one an expect call in
main.rs: comparePanic is the expect at lines 154 and 170 (message: Could
not compare distances), noNearestPanic is the expect at lines 156 and 171
(message: Could not find a nearest distance). -/
inductive RunError : Type
  | comparePanic : RunError
  | noNearestPanic : RunError
deriving DecidableEq

/-- Lines 131-147 of main.rs: for one consecutive node pair, compute the
segment length, the along-track distance of the query position, the
bearing, clamp the projected point to the segment, and record the distance
from the query position to the clamped point together with the way. -/
def segmentEntry (g : GeoFns) (pos : Coord) (way : OsmWay) (line1 line2 : Coord) : Entry :=
  let length := g.distance line1 line2
  let along := g.alongTrackDistance line1 line2 pos
  let b := g.bearing line1 line2
  let dest :=
    if along.ltF (.fin 0) then line1
    else if along.gtF length then line2
    else g.destination line1 b along
  (g.distance pos dest, dest, way)

/-- The node_distances vector built by the loop of lines 127-149: one entry
per consecutive node pair of the resolved node list. -/
def nodeDistances (g : GeoFns) (pos : Coord) (way : OsmWay) : List OsmNode → List Entry
  | n1 :: n2 :: rest =>
      segmentEntry g pos way n1.toCoord n2.toCoord :: nodeDistances g pos way (n2 :: rest)
  | _ => []

/-- The comparator of lines 153-155 and 170: partial_cmp on the distance
component. -/
def entryCmp (a b : Entry) : Option Ordering :=
  a.1.pcmp b.1

/-- The fold of Iterator::min_by with the panicking comparator: the
accumulator is kept unless it compares strictly greater than the next
element (so the first of several equal minima wins), and a non-comparable
pair is the Could-not-compare-distances panic. -/
def minByGo : Entry → List Entry → Except RunError Entry
  | acc, [] => .ok acc
  | acc, y :: ys =>
    match entryCmp acc y with
    | none => .error .comparePanic
    | some o => minByGo (if o = Ordering.gt then y else acc) ys

/-- Iterator::min_by with the panicking comparator of main.rs: none on the
empty sequence, otherwise the fold above. -/
def rustMinBy : List Entry → Except RunError (Option Entry)
  | [] => .ok none
  | x :: xs =>
    match minByGo x xs with
    | .error e => .error e
    | .ok m => .ok (some m)

/-- Lines 124-158 of main.rs, the per-way body of nearest_points: build the
node_distances vector and take its minimum; the expect at line 156 turns an
empty vector into the Could-not-find-a-nearest-distance panic. -/
def wayNearest (g : GeoFns) (pos : Coord) (osm : OsmDocument) (way : OsmWay) :
    Except RunError Entry :=
  match rustMinBy (nodeDistances g pos way (way.points osm)) with
  | .error e => .error e
  | .ok none => .error .noNearestPanic
  | .ok (some e) => .ok e

/-- The loop of lines 123-159 over all ways, pushing one nearest entry per
way; a panic in one way aborts the whole run, as a Rust panic would. -/
def waysNearest (g : GeoFns) (pos : Coord) (osm : OsmDocument) :
    List OsmWay → Except RunError (List Entry)
  | [] => .ok []
  | w :: ws =>
    match wayNearest g pos osm w with
    | .error e => .error e
    | .ok e =>
      match waysNearest g pos osm ws with
      | .error err => .error err
      | .ok rest => .ok (e :: rest)

/-- Model::nearest_points, lines 119-163 of main.rs: the empty vector when
no position is set, otherwise one entry per way of the document. -/
def nearestPoints (g : GeoFns) (m : Model) : Except RunError (List Entry) :=
  match m.position with
  | none => .ok []
  | some pos => waysNearest g pos m.osm m.osm.ways

/-- Model::nearest_way, lines 165-175 of main.rs: the minimum of
nearest_points under the same panicking comparator, keeping only the way
component of the winning entry. -/
def nearestWay (g : GeoFns) (m : Model) : Except RunError OsmWay :=
  match nearestPoints g m with
  | .error e => .error e
  | .ok entries =>
    match rustMinBy entries with
    | .error e => .error e
    | .ok none => .error .noNearestPanic
    | .ok (some e) => .ok e.2.2

/-- Stated from the spec, section 4.2 step 3: if the along-track distance
is negative the nearest point on the segment is line1, if it exceeds the
segment length it is line2, otherwise it is the destination reached from
line1 along the bearing by the along-track distance.  This definition is
compared against the code path of segmentEntry. -/
def specClampedPoint (g : GeoFns) (pos line1 line2 : Coord) : Coord :=
  let length := g.distance line1 line2
  let along := g.alongTrackDistance line1 line2 pos
  if along.ltF (.fin 0) then line1
  else if along.gtF length then line2
  else g.destination line1 (g.bearing line1 line2) along

/-- Concrete nodes, ways, documents and geometry interpretations used by
the witness theorems below. -/
def nA : OsmNode := ⟨1, 1, 0⟩

def nB : OsmNode := ⟨2, 2, 0⟩

def nC : OsmNode := ⟨3, 3, 0⟩

/-- A way visiting the three test nodes in order. -/
def wayABC : OsmWay := ⟨100, [1, 2, 3]⟩

/-- A second way visiting two of the test nodes. -/
def wayCA : OsmWay := ⟨101, [3, 1]⟩

/-- A way referencing a single node. -/
def waySingle : OsmWay := ⟨102, [2]⟩

def docT : OsmDocument := ⟨[nA, nB, nC], [wayABC, wayCA]⟩

def posT : Coord := ⟨0, 1⟩

/-- A model with two ways and a set position. -/
def mT : Model := ⟨false, docT, some posT⟩

/-- A model with a set position and zero ways. -/
def mNoWays : Model := ⟨false, ⟨[nA, nB, nC], []⟩, some posT⟩

/-- A model with ways but no query position. -/
def mNoPos : Model := ⟨false, docT, none⟩

/-- A model whose single way resolves to exactly one node. -/
def mSingle : Model := ⟨false, ⟨[nA, nB, nC], [waySingle]⟩, some posT⟩

/-- A model with one three-node way, used with the NaN geometry. -/
def mNaN : Model := ⟨false, ⟨[nA, nB, nC], [wayABC]⟩, some posT⟩

/-- A simple concrete interpretation of the geo functions, built from
comparisons and coordinate components only so that witness statements
evaluate by kernel reduction: the distance of two distinct points is the
larger latitude, the along-track distance is the longitude of the query
point, and the destination is the origin point itself. -/
def gT : GeoFns :=
  { distance := fun a b => if a = b then .fin 0 else .fin (if a.lat < b.lat then b.lat else a.lat)
    bearing := fun _ _ => .fin 0
    alongTrackDistance := fun _ _ p => .fin p.lon
    destination := fun o _ _ => o }

/-- A geometry interpretation whose distances are always NaN. -/
def gN : GeoFns :=
  { distance := fun _ _ => .nan
    bearing := fun _ _ => .fin 0
    alongTrackDistance := fun _ _ _ => .fin 0
    destination := fun o _ _ => o }

example : nodeDistances gT posT wayABC (wayABC.points docT) =
    [(.fin 1, ⟨1, 0⟩, wayABC), (.fin 2, ⟨2, 0⟩, wayABC)] := rfl

example : nearestPoints gT mT =
    .ok [(.fin 1, ⟨1, 0⟩, wayABC), (.fin 3, ⟨3, 0⟩, wayCA)] := rfl

example : nearestWay gT mT = .ok wayABC := rfl

example : nearestPoints gT mSingle = .error .noNearestPanic := rfl

example : nearestPoints gN mNaN = .error .comparePanic := rfl

/-- A finite FVal carries a rational. -/
theorem FVal.isFin_exists (x : FVal) (h : x.isFin = true) : ∃ q, x = .fin q := by
  cases x with
  | nan => simp [FVal.isFin] at h
  | fin q => exact ⟨q, rfl⟩

theorem FVal.leF_fin_fin {a b : ℚ} : FVal.leF (.fin a) (.fin b) = true ↔ a ≤ b := by
  simp [FVal.leF]

theorem FVal.ltF_fin_fin {a b : ℚ} : FVal.ltF (.fin a) (.fin b) = true ↔ a < b := by
  simp [FVal.ltF]

/-- A value below a finite bound is itself finite. -/
theorem FVal.leF_left_fin {x : FVal} {b : ℚ} (h : FVal.leF x (.fin b) = true) :
    ∃ a, x = .fin a ∧ a ≤ b := by
  cases x with
  | nan => simp [FVal.leF] at h
  | fin a => exact ⟨a, rfl, FVal.leF_fin_fin.mp h⟩

theorem qcmp_gt_iff {a b : ℚ} : qcmp a b = Ordering.gt ↔ b < a := by
  unfold qcmp
  by_cases h1 : a < b
  · simp only [if_pos h1]
    constructor
    · intro h; cases h
    · intro h; exact absurd (lt_trans h h1) (lt_irrefl b)
  · by_cases h2 : a = b
    · subst h2
      simp only [if_neg h1, if_pos rfl]
      constructor
      · intro h; cases h
      · intro h; exact absurd h (lt_irrefl a)
    · simp only [if_neg h1, if_neg h2]
      constructor
      · intro _; exact lt_of_le_of_ne (not_lt.mp h1) (fun hba => h2 hba.symm)
      · intro _; trivial

/-- The fold of min_by over comparable entries returns the first entry
attaining the minimal distance: it is an entry of the list, no entry is
strictly below it, and every entry before it is strictly above it. -/
theorem minByGo_char :
    ∀ (xs : List Entry) (acc : Entry), acc.1.isFin = true →
      (∀ e ∈ xs, e.1.isFin = true) →
      ∃ j e, minByGo acc xs = .ok e ∧ (acc :: xs).get? j = some e ∧
        (∀ k e', (acc :: xs).get? k = some e' → FVal.leF e.1 e'.1 = true) ∧
        (∀ k e', (acc :: xs).get? k = some e' → k < j → FVal.ltF e.1 e'.1 = true) := by
  intro xs
  induction xs with
  | nil =>
    intro acc ha _
    obtain ⟨a, hA⟩ := FVal.isFin_exists acc.1 ha
    refine ⟨0, acc, rfl, rfl, ?_, ?_⟩
    · intro k e' hk
      cases k with
      | zero =>
        rw [List.get?_cons_zero] at hk
        cases hk
        rw [hA]
        exact FVal.leF_fin_fin.mpr le_rfl
      | succ k => rw [List.get?_cons_succ, List.get?_nil] at hk; cases hk
    · intro k e' _ hk; exact absurd hk (Nat.not_lt_zero k)
  | cons y ys ih =>
    intro acc ha hxs
    obtain ⟨a, hA⟩ := FVal.isFin_exists acc.1 ha
    obtain ⟨b, hB⟩ := FVal.isFin_exists y.1 (hxs y (List.mem_cons_self y ys))
    have hstep : minByGo acc (y :: ys) =
        minByGo (if qcmp a b = Ordering.gt then y else acc) ys := by
      rw [minByGo, entryCmp, hA, hB, FVal.pcmp]
    by_cases hgt : qcmp a b = Ordering.gt
    · obtain ⟨j, e, hrun, hget, hle, hlt⟩ :=
        ih y (by rw [hB]; rfl) (fun e he => hxs e (List.mem_cons_of_mem y he))
      have hba : b < a := qcmp_gt_iff.mp hgt
      have heb : FVal.leF e.1 (.fin b) = true := by
        rw [← hB]; exact hle 0 y List.get?_cons_zero
      obtain ⟨qe, hqe, hqeb⟩ := FVal.leF_left_fin heb
      refine ⟨j + 1, e, ?_, ?_, ?_, ?_⟩
      · rw [hstep, if_pos hgt]; exact hrun
      · rw [List.get?_cons_succ]; exact hget
      · intro k e' hk
        cases k with
        | zero =>
          rw [List.get?_cons_zero] at hk
          cases hk
          rw [hA, hqe]
          exact FVal.leF_fin_fin.mpr (le_of_lt (lt_of_le_of_lt hqeb hba))
        | succ k => rw [List.get?_cons_succ] at hk; exact hle k e' hk
      · intro k e' hk hkj
        cases k with
        | zero =>
          rw [List.get?_cons_zero] at hk
          cases hk
          rw [hA, hqe]
          exact FVal.ltF_fin_fin.mpr (lt_of_le_of_lt hqeb hba)
        | succ k =>
          rw [List.get?_cons_succ] at hk
          exact hlt k e' hk (Nat.lt_of_succ_lt_succ hkj)
    · obtain ⟨j, e, hrun, hget, hle, hlt⟩ := ih acc ha (fun e he => hxs e (List.mem_cons_of_mem y he))
      have hab : a ≤ b := not_lt.mp (fun hba => hgt (qcmp_gt_iff.mpr hba))
      have hea : FVal.leF e.1 (.fin a) = true := by
        rw [← hA]; exact hle 0 acc List.get?_cons_zero
      obtain ⟨qe, hqe, hqea⟩ := FVal.leF_left_fin hea
      have hrun' : minByGo acc (y :: ys) = .ok e := by rw [hstep, if_neg hgt]; exact hrun
      have hleAll : ∀ k e', (acc :: y :: ys).get? k = some e' → FVal.leF e.1 e'.1 = true := by
        intro k e' hk
        cases k with
        | zero => rw [List.get?_cons_zero] at hk; exact hle 0 e' (by rw [List.get?_cons_zero]; exact hk)
        | succ k =>
          rw [List.get?_cons_succ] at hk
          cases k with
          | zero =>
            rw [List.get?_cons_zero] at hk
            cases hk
            rw [hB, hqe]
            exact FVal.leF_fin_fin.mpr (le_trans hqea hab)
          | succ k =>
            rw [List.get?_cons_succ] at hk
            exact hle (k + 1) e' (by rw [List.get?_cons_succ]; exact hk)
      cases j with
      | zero =>
        refine ⟨0, e, hrun', ?_, hleAll, ?_⟩
        · rw [List.get?_cons_zero] at hget ⊢; exact hget
        · intro k e' _ hk; exact absurd hk (Nat.not_lt_zero k)
      | succ j0 =>
        have hlta : FVal.ltF e.1 (.fin a) = true := by
          rw [← hA]; exact hlt 0 acc List.get?_cons_zero (Nat.succ_pos j0)
        have hqea' : qe < a := by
          rw [hqe] at hlta; exact FVal.ltF_fin_fin.mp hlta
        refine ⟨j0 + 2, e, hrun', ?_, hleAll, ?_⟩
        · rw [List.get?_cons_succ, List.get?_cons_succ]
          rw [List.get?_cons_succ] at hget
          exact hget
        · intro k e' hk hkj
          cases k with
          | zero =>
            rw [List.get?_cons_zero] at hk
            cases hk
            rw [hA, hqe]
            exact FVal.ltF_fin_fin.mpr hqea'
          | succ k =>
            rw [List.get?_cons_succ] at hk
            cases k with
            | zero =>
              rw [List.get?_cons_zero] at hk
              cases hk
              rw [hB, hqe]
              exact FVal.ltF_fin_fin.mpr (lt_of_lt_of_le hqea' hab)
            | succ k =>
              rw [List.get?_cons_succ] at hk
              exact hlt (k + 1) e' (by rw [List.get?_cons_succ]; exact hk)
                (by omega)

/-- The minimum of a nonempty list of comparable entries succeeds and is
the first entry attaining the minimal distance. -/
theorem rustMinBy_char (es : List Entry) (hne : es ≠ [])
    (hfin : ∀ e ∈ es, e.1.isFin = true) :
    ∃ j e, rustMinBy es = .ok (some e) ∧ es.get? j = some e ∧
      (∀ k e', es.get? k = some e' → FVal.leF e.1 e'.1 = true) ∧
      (∀ k e', es.get? k = some e' → k < j → FVal.ltF e.1 e'.1 = true) := by
  cases es with
  | nil => exact absurd rfl hne
  | cons x xs =>
    obtain ⟨j, e, hrun, hget, hle, hlt⟩ :=
      minByGo_char xs x (hfin x (List.mem_cons_self x xs))
        (fun e he => hfin e (List.mem_cons_of_mem x he))
    exact ⟨j, e, by rw [rustMinBy, hrun], hget, hle, hlt⟩

/-- The fold of min_by only ever returns an element of its input. -/
theorem minByGo_mem :
    ∀ (xs : List Entry) (acc e : Entry), minByGo acc xs = .ok e → e ∈ acc :: xs := by
  intro xs
  induction xs with
  | nil =>
    intro acc e h
    rw [minByGo] at h
    cases h
    exact List.mem_cons_self acc []
  | cons y ys ih =>
    intro acc e h
    rw [minByGo] at h
    cases hc : entryCmp acc y with
    | none => rw [hc] at h; cases h
    | some o =>
      rw [hc] at h
      have hmem := ih _ e h
      by_cases ho : o = Ordering.gt
      · rw [if_pos ho] at hmem
        exact List.mem_cons_of_mem acc hmem
      · rw [if_neg ho] at hmem
        rcases List.mem_cons.mp hmem with he | he
        · rw [he]; exact List.mem_cons_self acc (y :: ys)
        · exact List.mem_cons_of_mem acc (List.mem_cons_of_mem y he)

/-- The min_by result is an element of its input list. -/
theorem rustMinBy_mem (es : List Entry) (e : Entry)
    (h : rustMinBy es = .ok (some e)) : e ∈ es := by
  cases es with
  | nil => rw [rustMinBy] at h; cases h
  | cons x xs =>
    rw [rustMinBy] at h
    cases hg : minByGo x xs with
    | error err => rw [hg] at h; cases h
    | ok m =>
      rw [hg] at h
      cases h
      exact minByGo_mem xs x _ hg

/-- A list of n resolved nodes yields n - 1 segment entries. -/
theorem nodeDistances_length (g : GeoFns) (pos : Coord) (way : OsmWay) :
    ∀ l : List OsmNode, (nodeDistances g pos way l).length = l.length - 1
  | [] => rfl
  | [_] => rfl
  | n1 :: n2 :: rest => by
    rw [nodeDistances]
    simp only [List.length_cons, nodeDistances_length g pos way (n2 :: rest)]
    omega

/-- The segment entry at index i is built from the node pair at indices i
and i + 1. -/
theorem nodeDistances_get? (g : GeoFns) (pos : Coord) (way : OsmWay) :
    ∀ (l : List OsmNode) (i : ℕ) (n1 n2 : OsmNode),
      l.get? i = some n1 → l.get? (i + 1) = some n2 →
      (nodeDistances g pos way l).get? i =
        some (segmentEntry g pos way n1.toCoord n2.toCoord)
  | [], i, n1, n2, h1, _ => by rw [List.get?_nil] at h1; cases h1
  | [n], i, n1, n2, _, h2 => by
    rw [List.get?_cons_succ, List.get?_nil] at h2; cases h2
  | a :: b :: rest, 0, n1, n2, h1, h2 => by
    rw [List.get?_cons_zero] at h1
    rw [List.get?_cons_succ, List.get?_cons_zero] at h2
    cases h1
    cases h2
    rw [nodeDistances, List.get?_cons_zero]
  | a :: b :: rest, i + 1, n1, n2, h1, h2 => by
    rw [List.get?_cons_succ] at h1
    rw [List.get?_cons_succ] at h2
    rw [nodeDistances, List.get?_cons_succ]
    exact nodeDistances_get? g pos way (b :: rest) i n1 n2 h1 h2

/-- Every segment entry comes from a consecutive node pair of the list. -/
theorem nodeDistances_mem (g : GeoFns) (pos : Coord) (way : OsmWay) :
    ∀ (l : List OsmNode) (e : Entry), e ∈ nodeDistances g pos way l →
      ∃ i n1 n2, l.get? i = some n1 ∧ l.get? (i + 1) = some n2 ∧
        e = segmentEntry g pos way n1.toCoord n2.toCoord
  | [], e, h => by simp [nodeDistances] at h
  | [_], e, h => by simp [nodeDistances] at h
  | a :: b :: rest, e, h => by
    rw [nodeDistances] at h
    rcases List.mem_cons.mp h with he | he
    · exact ⟨0, a, b, rfl, rfl, he⟩
    · obtain ⟨i, n1, n2, h1, h2, he'⟩ := nodeDistances_mem g pos way (b :: rest) e he
      exact ⟨i + 1, n1, n2, by rw [List.get?_cons_succ]; exact h1,
        by rw [List.get?_cons_succ]; exact h2, he'⟩

/-- A successful run over a way list yields one entry per way, in order,
each one the successful per-way result. -/
theorem waysNearest_ok (g : GeoFns) (pos : Coord) (osm : OsmDocument) :
    ∀ (ws : List OsmWay) (es : List Entry), waysNearest g pos osm ws = .ok es →
      es.length = ws.length ∧
      ∀ j w, ws.get? j = some w →
        ∃ e, es.get? j = some e ∧ wayNearest g pos osm w = .ok e
  | [], es, h => by
    rw [waysNearest] at h
    cases h
    exact ⟨rfl, fun j w hw => by rw [List.get?_nil] at hw; cases hw⟩
  | w :: ws, es, h => by
    rw [waysNearest] at h
    cases hw : wayNearest g pos osm w with
    | error err => rw [hw] at h; cases h
    | ok e0 =>
      rw [hw] at h
      cases hrest : waysNearest g pos osm ws with
      | error err => rw [hrest] at h; cases h
      | ok rest =>
        rw [hrest] at h
        cases h
        obtain ⟨hlen, hall⟩ := waysNearest_ok g pos osm ws rest hrest
        refine ⟨by rw [List.length_cons, List.length_cons, hlen], ?_⟩
        intro j w' hw'
        cases j with
        | zero =>
          rw [List.get?_cons_zero] at hw'
          cases hw'
          exact ⟨e0, List.get?_cons_zero, hw⟩
        | succ j =>
          rw [List.get?_cons_succ] at hw'
          obtain ⟨e, he, hne⟩ := hall j w' hw'
          exact ⟨e, by rw [List.get?_cons_succ]; exact he, hne⟩

/-- Every entry of a successful run belongs to some way of the list. -/
theorem waysNearest_mem (g : GeoFns) (pos : Coord) (osm : OsmDocument) :
    ∀ (ws : List OsmWay) (es : List Entry), waysNearest g pos osm ws = .ok es →
      ∀ e ∈ es, ∃ w, w ∈ ws ∧ wayNearest g pos osm w = .ok e
  | [], es, h => by
    rw [waysNearest] at h
    cases h
    intro e he
    cases he
  | w :: ws, es, h => by
    rw [waysNearest] at h
    cases hw : wayNearest g pos osm w with
    | error err => rw [hw] at h; cases h
    | ok e0 =>
      rw [hw] at h
      cases hrest : waysNearest g pos osm ws with
      | error err => rw [hrest] at h; cases h
      | ok rest =>
        rw [hrest] at h
        cases h
        intro e he
        rcases List.mem_cons.mp he with he0 | hemem
        · exact ⟨w, List.mem_cons_self w ws, by rw [he0]; exact hw⟩
        · obtain ⟨w', hw', he'⟩ := waysNearest_mem g pos osm ws rest hrest e hemem
          exact ⟨w', List.mem_cons_of_mem w hw', he'⟩

/-- If every way succeeds, the run over the whole list succeeds. -/
theorem waysNearest_total (g : GeoFns) (pos : Coord) (osm : OsmDocument) :
    ∀ ws : List OsmWay, (∀ w ∈ ws, ∃ e, wayNearest g pos osm w = .ok e) →
      ∃ es, waysNearest g pos osm ws = .ok es
  | [], _ => ⟨[], rfl⟩
  | w :: ws, h => by
    obtain ⟨e, he⟩ := h w (List.mem_cons_self w ws)
    obtain ⟨es, hes⟩ := waysNearest_total g pos osm ws
      (fun w' hw' => h w' (List.mem_cons_of_mem w hw'))
    exact ⟨e :: es, by rw [waysNearest, he, hes]⟩

/-- A successful per-way result is one of the segment entries of the way. -/
theorem wayNearest_mem (g : GeoFns) (pos : Coord) (osm : OsmDocument) (w : OsmWay) (e : Entry)
    (h : wayNearest g pos osm w = .ok e) :
    e ∈ nodeDistances g pos w (w.points osm) := by
  rw [wayNearest] at h
  cases hr : rustMinBy (nodeDistances g pos w (w.points osm)) with
  | error err => rw [hr] at h; cases h
  | ok m =>
    cases m with
    | none => rw [hr] at h; cases h
    | some e0 =>
      rw [hr] at h
      cases h
      exact rustMinBy_mem _ _ hr

/-- A way with at least two resolved nodes and comparable segment
distances produces a successful per-way result. -/
theorem wayNearest_ok_of (g : GeoFns) (pos : Coord) (osm : OsmDocument) (w : OsmWay)
    (h2 : 2 ≤ (OsmWay.points w osm).length)
    (hfin : ∀ e ∈ nodeDistances g pos w (w.points osm), e.1.isFin = true) :
    ∃ e, wayNearest g pos osm w = .ok e := by
  have hlen := nodeDistances_length g pos w (w.points osm)
  have hne : nodeDistances g pos w (w.points osm) ≠ [] := by
    intro h0
    rw [h0] at hlen
    simp only [List.length_nil] at hlen
    omega
  obtain ⟨j, e, hrun, -, -, -⟩ := rustMinBy_char _ hne hfin
  exact ⟨e, by rw [wayNearest, hrun]⟩

/-- C1: for every way with at least two resolved nodes and every query
position, the entry computed for the consecutive node pair at indices i and
i + 1 is the clamped point together with the distance from the query
position to it, where the clamped point is line1 when the along-track
distance is negative, line2 when it exceeds the segment length, and
otherwise the destination reached from line1 along the bearing by the
along-track distance. -/
theorem claim1_segment_rule (g : GeoFns) (pos : Coord) (w : OsmWay) (l : List OsmNode)
    (i : ℕ) (n1 n2 : OsmNode) (h1 : l.get? i = some n1) (h2 : l.get? (i + 1) = some n2) :
    (nodeDistances g pos w l).get? i =
      some (g.distance pos (specClampedPoint g pos n1.toCoord n2.toCoord),
        specClampedPoint g pos n1.toCoord n2.toCoord, w) ∧
    (FVal.ltF (g.alongTrackDistance n1.toCoord n2.toCoord pos) (.fin 0) = true →
      specClampedPoint g pos n1.toCoord n2.toCoord = n1.toCoord) ∧
    (FVal.ltF (g.alongTrackDistance n1.toCoord n2.toCoord pos) (.fin 0) = false →
      FVal.gtF (g.alongTrackDistance n1.toCoord n2.toCoord pos)
        (g.distance n1.toCoord n2.toCoord) = true →
      specClampedPoint g pos n1.toCoord n2.toCoord = n2.toCoord) ∧
    (FVal.ltF (g.alongTrackDistance n1.toCoord n2.toCoord pos) (.fin 0) = false →
      FVal.gtF (g.alongTrackDistance n1.toCoord n2.toCoord pos)
        (g.distance n1.toCoord n2.toCoord) = false →
      specClampedPoint g pos n1.toCoord n2.toCoord =
        g.destination n1.toCoord (g.bearing n1.toCoord n2.toCoord)
          (g.alongTrackDistance n1.toCoord n2.toCoord pos)) := by
  refine ⟨?_, ?_, ?_, ?_⟩
  · rw [nodeDistances_get? g pos w l i n1 n2 h1 h2]
    rfl
  · intro hlt
    simp [specClampedPoint, hlt]
  · intro hlt hgt
    simp [specClampedPoint, hlt, hgt]
  · intro hlt hgt
    simp [specClampedPoint, hlt, hgt]

/-- Witness for C1 at the first segment of the concrete test way. -/
theorem claim1_segment_rule_witness :
    (nodeDistances gT posT wayABC (OsmWay.points wayABC docT)).get? 0 =
      some (gT.distance posT (specClampedPoint gT posT nA.toCoord nB.toCoord),
        specClampedPoint gT posT nA.toCoord nB.toCoord, wayABC) :=
  (claim1_segment_rule gT posT wayABC (OsmWay.points wayABC docT) 0 nA nB rfl rfl).1

/-- C3: for a way with at least two resolved nodes and comparable segment
distances, the per-way result is the first segment entry attaining the
minimal segment distance: no entry is strictly below it and every entry of
an earlier segment is strictly above it. -/
theorem claim3_way_first_min (g : GeoFns) (pos : Coord) (osm : OsmDocument) (w : OsmWay)
    (h2 : 2 ≤ (OsmWay.points w osm).length)
    (hfin : ∀ e ∈ nodeDistances g pos w (OsmWay.points w osm), e.1.isFin = true) :
    ∃ j e, (nodeDistances g pos w (OsmWay.points w osm)).get? j = some e ∧
      wayNearest g pos osm w = .ok e ∧
      (∀ k e', (nodeDistances g pos w (OsmWay.points w osm)).get? k = some e' →
        FVal.leF e.1 e'.1 = true) ∧
      (∀ k e', (nodeDistances g pos w (OsmWay.points w osm)).get? k = some e' → k < j →
        FVal.ltF e.1 e'.1 = true) := by
  have hlen := nodeDistances_length g pos w (OsmWay.points w osm)
  have hne : nodeDistances g pos w (OsmWay.points w osm) ≠ [] := by
    intro h0
    rw [h0] at hlen
    simp only [List.length_nil] at hlen
    omega
  obtain ⟨j, e, hrun, hget, hle, hlt⟩ := rustMinBy_char _ hne hfin
  exact ⟨j, e, hget, by rw [wayNearest, hrun], hle, hlt⟩

/-- Witness for C3 at the concrete test way with two segments. -/
theorem claim3_way_first_min_witness :
    ∃ j e, (nodeDistances gT posT wayABC (OsmWay.points wayABC docT)).get? j = some e ∧
      wayNearest gT posT docT wayABC = .ok e ∧
      (∀ k e', (nodeDistances gT posT wayABC (OsmWay.points wayABC docT)).get? k = some e' →
        FVal.leF e.1 e'.1 = true) ∧
      (∀ k e', (nodeDistances gT posT wayABC (OsmWay.points wayABC docT)).get? k = some e' →
        k < j → FVal.ltF e.1 e'.1 = true) :=
  claim3_way_first_min gT posT docT wayABC (by decide) (by decide)

/-- C2: when nearest_points completes on a document with at least one way
and every produced distance is comparable, nearest_way returns the way
component of the first entry attaining the globally minimal distance; the
entry at each index stems from the way at the same index of the document,
so first in entry order is first in document way order. -/
theorem claim2_nearest_way_min (g : GeoFns) (m : Model) (pos : Coord) (es : List Entry)
    (hpos : m.position = some pos) (hok : nearestPoints g m = .ok es) (hne : es ≠ [])
    (hfin : ∀ e ∈ es, e.1.isFin = true) :
    ∃ j e, es.get? j = some e ∧ nearestWay g m = .ok e.2.2 ∧
      (∀ k e', es.get? k = some e' → FVal.leF e.1 e'.1 = true) ∧
      (∀ k e', es.get? k = some e' → k < j → FVal.ltF e.1 e'.1 = true) ∧
      es.length = m.osm.ways.length ∧
      (∀ k e', es.get? k = some e' → ∃ w, m.osm.ways.get? k = some w ∧ e'.2.2 = w) := by
  obtain ⟨j, e, hrun, hget, hle, hlt⟩ := rustMinBy_char es hne hfin
  have hok' : waysNearest g pos m.osm m.osm.ways = .ok es := by
    rw [nearestPoints, hpos] at hok
    exact hok
  obtain ⟨hlen, hall⟩ := waysNearest_ok g pos m.osm m.osm.ways es hok'
  refine ⟨j, e, hget, by simp only [nearestWay, hok, hrun], hle, hlt, hlen, ?_⟩
  intro k e' hke'
  obtain ⟨hk, -⟩ := List.get?_eq_some.mp hke'
  have hkw : k < m.osm.ways.length := by rw [← hlen]; exact hk
  have hwex : ∃ w, m.osm.ways.get? k = some w := by
    cases hgw : m.osm.ways.get? k with
    | none => rw [List.get?_eq_none] at hgw; omega
    | some w => exact ⟨w, rfl⟩
  obtain ⟨w, hwk⟩ := hwex
  obtain ⟨e'', he'', hwne⟩ := hall k w hwk
  have hee : e'' = e' := by
    rw [hke'] at he''
    cases he''
    rfl
  subst hee
  have hmem := wayNearest_mem g pos m.osm w e'' hwne
  obtain ⟨i, n1, n2, -, -, heq⟩ := nodeDistances_mem g pos w _ e'' hmem
  refine ⟨w, hwk, ?_⟩
  rw [heq]
  rfl

/-- Witness for C2 at the concrete two-way model. -/
theorem claim2_nearest_way_min_witness :
    ∃ j e, ([(.fin 1, (⟨1, 0⟩ : Coord), wayABC), (.fin 3, (⟨3, 0⟩ : Coord), wayCA)] :
        List Entry).get? j = some e ∧
      nearestWay gT mT = .ok e.2.2 ∧
      (∀ k e', ([(.fin 1, (⟨1, 0⟩ : Coord), wayABC), (.fin 3, (⟨3, 0⟩ : Coord), wayCA)] :
          List Entry).get? k = some e' → FVal.leF e.1 e'.1 = true) ∧
      (∀ k e', ([(.fin 1, (⟨1, 0⟩ : Coord), wayABC), (.fin 3, (⟨3, 0⟩ : Coord), wayCA)] :
          List Entry).get? k = some e' → k < j → FVal.ltF e.1 e'.1 = true) ∧
      ([(.fin 1, (⟨1, 0⟩ : Coord), wayABC), (.fin 3, (⟨3, 0⟩ : Coord), wayCA)] :
          List Entry).length = mT.osm.ways.length ∧
      (∀ k e', ([(.fin 1, (⟨1, 0⟩ : Coord), wayABC), (.fin 3, (⟨3, 0⟩ : Coord), wayCA)] :
          List Entry).get? k = some e' → ∃ w, mT.osm.ways.get? k = some w ∧ e'.2.2 = w) :=
  claim2_nearest_way_min gT mT posT
    [(.fin 1, ⟨1, 0⟩, wayABC), (.fin 3, ⟨3, 0⟩, wayCA)] rfl rfl (by decide) (by decide)

/-- C4 counterexample: at a concrete document with zero ways, and likewise
at a concrete model with no query position, nearest_way reaches the expect
panic of line 171 of main.rs (modelled as RunError.noNearestPanic).  The
code defines no NoWays or NoPosition result values at all: both situations
abort through the very same panic instead of being reported as distinct
result values, so the claim as stated is false at these inputs. -/
theorem claim4_counterexample :
    nearestWay gT mNoWays = .error .noNearestPanic ∧
    nearestWay gT mNoPos = .error .noNearestPanic :=
  ⟨rfl, rfl⟩

/-- C4 (amended): nearest_way reaches the Could-not-find-a-nearest-distance
panic whenever the document has zero ways or no query position is set; the
failure is an aborting panic, not an explicit NoWays or NoPosition result
value. -/
theorem claim4_nearest_way_panics (g : GeoFns) (m : Model)
    (h : m.osm.ways = [] ∨ m.position = none) :
    nearestWay g m = .error .noNearestPanic := by
  have hnp : nearestPoints g m = .ok [] := by
    cases hp : m.position with
    | none => rw [nearestPoints, hp]
    | some pos =>
      rcases h with hw | hp'
      · rw [nearestPoints, hp, hw]
        rfl
      · rw [hp'] at hp
        cases hp
  rw [nearestWay, hnp]
  rfl

/-- Witness for the amended C4 at the model without a position. -/
theorem claim4_nearest_way_panics_witness :
    nearestWay gT mNoPos = .error .noNearestPanic :=
  claim4_nearest_way_panics gT mNoPos (Or.inr rfl)

/-- C5 counterexample: at a concrete model whose only way resolves to the
single node nB, nearest_points reaches the expect panic of line 156 of
main.rs (modelled as RunError.noNearestPanic) because the way has no
consecutive node pair, so the node_distances vector is empty.  In
particular the run does not return the point-to-point distance entry the
claim asserts, refuting the claim at this input. -/
theorem claim5_counterexample :
    nearestPoints gT mSingle = .error .noNearestPanic ∧
    nearestPoints gT mSingle ≠
      .ok [(gT.distance posT nB.toCoord, nB.toCoord, waySingle)] := by
  refine ⟨rfl, ?_⟩
  intro h
  rw [show nearestPoints gT mSingle = .error .noNearestPanic from rfl] at h
  cases h

/-- C5 (amended): a way whose reference list resolves to exactly one node
makes nearest_points reach the Could-not-find-a-nearest-distance panic; no
point-to-point fallback distance is computed. -/
theorem claim5_single_node_panics (g : GeoFns) (m : Model) (pos : Coord)
    (w : OsmWay) (n : OsmNode) (hpos : m.position = some pos)
    (hways : m.osm.ways = [w]) (hpts : OsmWay.points w m.osm = [n]) :
    nearestPoints g m = .error .noNearestPanic := by
  have hwn : wayNearest g pos m.osm w = .error .noNearestPanic := by
    rw [wayNearest, hpts]
    rfl
  rw [nearestPoints, hpos, hways]
  simp only [waysNearest, hwn]

/-- Witness for the amended C5 at the concrete single-node way. -/
theorem claim5_single_node_panics_witness :
    nearestPoints gT mSingle = .error .noNearestPanic :=
  claim5_single_node_panics gT mSingle posT waySingle nB rfl rfl rfl

/-- C6 counterexample: with a geometry whose distances are NaN and a
concrete three-node way, the two segment distances are both NaN, the
comparator of line 154 of main.rs receives a non-comparable pair and the
run aborts through the Could-not-compare-distances panic (modelled as
RunError.comparePanic).  The code defines no ComputationError result
value: the NaN comparison is an aborting panic, refuting the claim that it
is surfaced as a result value. -/
theorem claim6_counterexample :
    nearestPoints gN mNaN = .error .comparePanic ∧
    nearestWay gN mNaN = .error .comparePanic :=
  ⟨rfl, rfl⟩

/-- C6 (amended): whenever a NaN distance reaches a comparison of the
per-way or of the global minimization, the run aborts with the
Could-not-compare-distances panic; the NaN is never coerced into an
ordering, but the failure is a panic, not a ComputationError result
value. -/
theorem claim6_nan_comparison_panics (e1 e2 : Entry) (rest : List Entry)
    (hnan : e1.1 = .nan ∨ e2.1 = .nan) :
    rustMinBy (e1 :: e2 :: rest) = .error .comparePanic ∧
    (∀ g pos osm w, nodeDistances g pos w (OsmWay.points w osm) = e1 :: e2 :: rest →
      wayNearest g pos osm w = .error .comparePanic) ∧
    (∀ g m, nearestPoints g m = .ok (e1 :: e2 :: rest) →
      nearestWay g m = .error .comparePanic) := by
  obtain ⟨d1, c1, w1⟩ := e1
  obtain ⟨d2, c2, w2⟩ := e2
  have hcmp : entryCmp (d1, c1, w1) (d2, c2, w2) = none := by
    rcases hnan with h | h
    · simp only at h
      rw [entryCmp, h]
      rfl
    · simp only at h
      rw [entryCmp, h]
      cases d1 <;> rfl
  have hmb : rustMinBy ((d1, c1, w1) :: (d2, c2, w2) :: rest) = .error .comparePanic := by
    rw [rustMinBy, minByGo, hcmp]
  refine ⟨hmb, ?_, ?_⟩
  · intro g pos osm w hnd
    rw [wayNearest, hnd, hmb]
  · intro g m hok
    simp only [nearestWay, hok, hmb]

/-- Witness for the amended C6 at two concrete NaN entries. -/
theorem claim6_nan_comparison_panics_witness :
    rustMinBy ((.nan, nA.toCoord, wayABC) :: (.nan, nB.toCoord, wayABC) :: []) =
      .error .comparePanic :=
  (claim6_nan_comparison_panics (.nan, nA.toCoord, wayABC) (.nan, nB.toCoord, wayABC) []
    (Or.inl rfl)).1

/-- C7: when nearest_points completes with a set query position, it returns
exactly one entry per way of the document, in document order, each entry
being the successful result of the per-way per-segment procedure for the
way at the same index. -/
theorem claim7_one_entry_per_way (g : GeoFns) (m : Model) (pos : Coord) (es : List Entry)
    (hpos : m.position = some pos) (hok : nearestPoints g m = .ok es) :
    es.length = m.osm.ways.length ∧
    ∀ j w, m.osm.ways.get? j = some w →
      ∃ e, es.get? j = some e ∧ wayNearest g pos m.osm w = .ok e := by
  rw [nearestPoints, hpos] at hok
  exact waysNearest_ok g pos m.osm m.osm.ways es hok

/-- Witness for C7 at the concrete two-way model. -/
theorem claim7_one_entry_per_way_witness :
    ([(.fin 1, (⟨1, 0⟩ : Coord), wayABC), (.fin 3, (⟨3, 0⟩ : Coord), wayCA)] :
        List Entry).length = mT.osm.ways.length ∧
    ∀ j w, mT.osm.ways.get? j = some w →
      ∃ e, ([(.fin 1, (⟨1, 0⟩ : Coord), wayABC), (.fin 3, (⟨3, 0⟩ : Coord), wayCA)] :
        List Entry).get? j = some e ∧ wayNearest gT posT mT.osm w = .ok e :=
  claim7_one_entry_per_way gT mT posT
    [(.fin 1, ⟨1, 0⟩, wayABC), (.fin 3, ⟨3, 0⟩, wayCA)] rfl rfl

/-- C8: nearest_points and nearest_way are deterministic pure functions of
the document and the query position: two models agreeing on those two
components give identical results whatever their map handles, and the
embedding returns results without producing any modified model. -/
theorem claim8_pure_function (g : GeoFns) (m1 m2 : Model)
    (hosm : m1.osm = m2.osm) (hpos : m1.position = m2.position) :
    nearestPoints g m1 = nearestPoints g m2 ∧ nearestWay g m1 = nearestWay g m2 := by
  have hp : nearestPoints g m1 = nearestPoints g m2 := by
    rw [nearestPoints, nearestPoints, hosm, hpos]
  exact ⟨hp, by rw [nearestWay, nearestWay, hp]⟩

/-- Witness for C8 at two concrete models differing only in the map
handle. -/
theorem claim8_pure_function_witness :
    nearestPoints gT mT = nearestPoints gT ⟨true, docT, some posT⟩ ∧
    nearestWay gT mT = nearestWay gT ⟨true, docT, some posT⟩ :=
  claim8_pure_function gT mT ⟨true, docT, some posT⟩ rfl rfl

/-- C9: with no query position set, nearest_points completes with the empty
vector; with a position set, if every way resolves to at least two nodes
and every computed segment distance is non-NaN, nearest_points completes
without reaching a panic branch, and nearest_way additionally completes
when the document has at least one way. -/
theorem claim9_no_panic (g : GeoFns) (m : Model) :
    (m.position = none → nearestPoints g m = .ok []) ∧
    ∀ pos, m.position = some pos →
      (∀ w ∈ m.osm.ways, 2 ≤ (OsmWay.points w m.osm).length ∧
        ∀ e ∈ nodeDistances g pos w (OsmWay.points w m.osm), e.1.isFin = true) →
      (∃ es, nearestPoints g m = .ok es) ∧
      (m.osm.ways ≠ [] → ∃ w, nearestWay g m = .ok w) := by
  constructor
  · intro hp
    rw [nearestPoints, hp]
  · intro pos hp hpre
    have htot : ∀ w ∈ m.osm.ways, ∃ e, wayNearest g pos m.osm w = .ok e :=
      fun w hw => wayNearest_ok_of g pos m.osm w (hpre w hw).1 (hpre w hw).2
    obtain ⟨es, hes⟩ := waysNearest_total g pos m.osm m.osm.ways htot
    have hnp : nearestPoints g m = .ok es := by
      rw [nearestPoints, hp]
      exact hes
    refine ⟨⟨es, hnp⟩, ?_⟩
    intro hne
    obtain ⟨hlen, -⟩ := waysNearest_ok g pos m.osm m.osm.ways es hes
    have hesne : es ≠ [] := by
      intro h0
      rw [h0] at hlen
      exact hne (List.eq_nil_of_length_eq_zero hlen.symm)
    have hfines : ∀ e ∈ es, e.1.isFin = true := by
      intro e he
      obtain ⟨w, hw, hwn⟩ := waysNearest_mem g pos m.osm m.osm.ways es hes e he
      exact (hpre w hw).2 e (wayNearest_mem g pos m.osm w e hwn)
    obtain ⟨j, e, hrun, -, -, -⟩ := rustMinBy_char es hesne hfines
    exact ⟨e.2.2, by simp only [nearestWay, hnp, hrun]⟩

/-- Witness for C9 at the concrete two-way model. -/
theorem claim9_no_panic_witness :
    (∃ es, nearestPoints gT mT = .ok es) ∧
    (mT.osm.ways ≠ [] → ∃ w, nearestWay gT mT = .ok w) :=
  (claim9_no_panic gT mT).2 posT rfl (by decide)

/-- C10: every entry produced by a completed nearest_points run carries a
distance equal to the distance from the query position to its point
component, belongs to a way of the document, and its point is either an
endpoint of a consecutive node pair of that way or the destination reached
from the pair start along the pair bearing by the along-track distance. -/
theorem claim10_entry_invariant (g : GeoFns) (m : Model) (pos : Coord) (es : List Entry)
    (hpos : m.position = some pos) (hok : nearestPoints g m = .ok es)
    (e : Entry) (he : e ∈ es) :
    e.1 = g.distance pos e.2.1 ∧
    ∃ w, w ∈ m.osm.ways ∧ e.2.2 = w ∧
      ∃ i n1 n2, (OsmWay.points w m.osm).get? i = some n1 ∧
        (OsmWay.points w m.osm).get? (i + 1) = some n2 ∧
        (e.2.1 = n1.toCoord ∨ e.2.1 = n2.toCoord ∨
          e.2.1 = g.destination n1.toCoord (g.bearing n1.toCoord n2.toCoord)
            (g.alongTrackDistance n1.toCoord n2.toCoord pos)) := by
  rw [nearestPoints, hpos] at hok
  obtain ⟨w, hw, hwn⟩ := waysNearest_mem g pos m.osm m.osm.ways es hok e he
  have hmem := wayNearest_mem g pos m.osm w e hwn
  obtain ⟨i, n1, n2, h1, h2, heq⟩ := nodeDistances_mem g pos w _ e hmem
  subst heq
  refine ⟨rfl, w, hw, rfl, i, n1, n2, h1, h2, ?_⟩
  simp only [segmentEntry]
  cases hlt : FVal.ltF (g.alongTrackDistance n1.toCoord n2.toCoord pos) (.fin 0) with
  | true =>
    simp only [hlt, if_true]
    exact Or.inl trivial
  | false =>
    simp only [hlt, Bool.false_eq_true, if_false]
    cases hgt : FVal.gtF (g.alongTrackDistance n1.toCoord n2.toCoord pos)
        (g.distance n1.toCoord n2.toCoord) with
    | true =>
      simp only [hgt, if_true]
      exact Or.inr (Or.inl trivial)
    | false =>
      simp only [hgt, Bool.false_eq_true, if_false]
      exact Or.inr (Or.inr trivial)

/-- Witness for C10 at the first entry of the concrete two-way model. -/
theorem claim10_entry_invariant_witness :
    (FVal.fin 1, (⟨1, 0⟩ : Coord), wayABC).1 =
      gT.distance posT (FVal.fin 1, (⟨1, 0⟩ : Coord), wayABC).2.1 ∧
    ∃ w, w ∈ mT.osm.ways ∧ (FVal.fin 1, (⟨1, 0⟩ : Coord), wayABC).2.2 = w ∧
      ∃ i n1 n2, (OsmWay.points w mT.osm).get? i = some n1 ∧
        (OsmWay.points w mT.osm).get? (i + 1) = some n2 ∧
        ((FVal.fin 1, (⟨1, 0⟩ : Coord), wayABC).2.1 = n1.toCoord ∨
          (FVal.fin 1, (⟨1, 0⟩ : Coord), wayABC).2.1 = n2.toCoord ∨
          (FVal.fin 1, (⟨1, 0⟩ : Coord), wayABC).2.1 =
            gT.destination n1.toCoord (gT.bearing n1.toCoord n2.toCoord)
              (gT.alongTrackDistance n1.toCoord n2.toCoord posT)) :=
  claim10_entry_invariant gT mT posT
    [(.fin 1, ⟨1, 0⟩, wayABC), (.fin 3, ⟨3, 0⟩, wayCA)] rfl rfl
    (.fin 1, ⟨1, 0⟩, wayABC) (by decide)
